import Mathlib

/-!
Verification of the ODE-system helper library embedded in the
scipy-2017-codegen-tutorial notebooks.

The Python sources are shallowly embedded:

* `mk_exprs_symbs` (notebooks/32-chemical-kinetics-symbolic-construction.ipynb,
  cell loading scipy2017codegen/symbolic_constr.py) builds the mass-action
  right-hand-side expressions of a reaction network.  SymPy expressions are
  embedded semantically: a symbol valuation is a function `String → R` into an
  arbitrary commutative ring, and two SymPy expressions are equal exactly when
  their values agree under every valuation into every commutative ring.
* `CythonODEsys.setup` (notebooks/40-chemical-kinetics-cython.ipynb, cell
  loading scipy2017codegen/odesys_cython.py) is embedded with a small
  syntactic expression type, because `xreplace` is a syntactic substitution.
* `VODEsys.integrate_vode` (notebooks/45-chemical-kinetics-cython-vode.ipynb,
  cell loading scipy2017codegen/odesys_vode.py) is embedded with the external
  VODE solver (scipy.integrate.ode) abstracted as an oracle giving the outcome
  of each `r.integrate` call.
* `MOLsys` (notebooks/60-chemical-kinetics-reaction-diffusion.ipynb, cell
  loading scipy2017codegen/odesys_diffusion.py) contributes its state-vector
  index arithmetic.
-/

/-- One entry of the `reactions` list of notebook 32: the rate-constant name
(`coeff`), the reactant multiplicities (`r_stoich`, a Python dict modelled as
an association list in insertion order) and the signed net stoichiometry
(`net_stoich`).  Python dict keys are unique; theorems that depend on this
carry an explicit `Nodup` hypothesis on the key lists. -/
structure Reaction where
  coeff : String
  r_stoich : List (String × ℕ)
  net_stoich : List (String × ℤ)
deriving DecidableEq

/-- Model of the helper `prod` of symbolic_constr.py:
`reduce(mul, seq) if seq else 1`, i.e. a left fold of multiplication starting
from the first element, and `1` on the empty list. -/
def prod {R : Type} [CommRing R] (seq : List R) : R :=
  match seq with
  | [] => 1
  | x :: xs => xs.foldl (· * ·) x

/-- The rate expression built for one reaction in `mk_exprs_symbs`:
`r = k[-1]*prod([c[rk]**p for rk, p in r_stoich.items()])`, under the symbol
valuations `c` (species concentrations) and `kv` (rate constants). -/
def rateExpr {R : Type} [CommRing R] (c kv : String → R) (rxn : Reaction) : R :=
  kv rxn.coeff * prod (rxn.r_stoich.map fun sp => c sp.1 ^ sp.2)

/-- The inner loop of `mk_exprs_symbs`:
`for net_key, net_mult in net_stoich.items(): f[net_key] += net_mult*r`.
The dict `f` is modelled as a function `String → R` updated pointwise. -/
def accumNet {R : Type} [CommRing R] (r : R) (net : List (String × ℤ))
    (f : String → R) : String → R :=
  net.foldl (fun g sp => Function.update g sp.1 (g sp.1 + (sp.2 : R) * r)) f

/-- The dict `f` of `mk_exprs_symbs` after the outer loop over all reactions,
starting from `f = {n: 0 for n in names}` (every species starts at `0`). -/
def derivDict {R : Type} [CommRing R] (c kv : String → R)
    (rxns : List Reaction) : String → R :=
  rxns.foldl (fun f rxn => accumNet (rateExpr c kv rxn) rxn.net_stoich f)
    (fun _ => 0)

/-- Guard under which `mk_exprs_symbs` completes: every species mentioned in a
reactant or net-stoichiometry dict occurs among `names`.  When it fails the
Python code raises `KeyError` on `c[rk]` or `f[net_key]`. -/
def keysOk (rxns : List Reaction) (names : List String) : Bool :=
  rxns.all fun rxn =>
    (rxn.r_stoich.all fun sp => names.contains sp.1) &&
    (rxn.net_stoich.all fun sp => names.contains sp.1)

/-- Model of `mk_exprs_symbs(rxns, names)` of symbolic_constr.py under symbol
valuations `c` (for the species symbols created by `sym.symbols(names, ...)`)
and `kv` (for the rate-constant symbols created by `sym.S(coeff)`).  A symbol
is identified with its name, so the returned symbol tuple is `names` itself
and the rate-constant tuple is the list of `coeff` names in reaction order.
`none` models the `KeyError` raised when a reaction mentions a species missing
from `names`. -/
def mk_exprs_symbs {R : Type} [CommRing R] (rxns : List Reaction)
    (names : List String) (c kv : String → R) :
    Option (List R × List String × List String) :=
  if keysOk rxns names then
    some (names.map (derivDict c kv rxns), names, rxns.map Reaction.coeff)
  else
    none

/-- Sum of the net multiplicities that a reaction's `net_stoich` dict assigns
to species `n` (for a genuine dict, whose keys are distinct, this is the one
coefficient of `n`, or `0` when `n` is absent). -/
def matchSum (n : String) : List (String × ℤ) → ℤ
  | [] => 0
  | sp :: net => (if sp.1 = n then sp.2 else 0) + matchSum n net

/-- The net stoichiometric coefficient of species `n` in a reaction: the value
its `net_stoich` dict assigns to `n`, with `0` for an absent species. -/
def netCoeff (n : String) (rxn : Reaction) : ℤ :=
  (rxn.net_stoich.lookup n).getD 0

/-- The law of mass action, written from the spec: each reaction `j`
contributes a rate `r_j = k_j · ∏_l c_l^{R_jl}` and the derivative of species
`i` is `∑_j S_ij · r_j` where `S` is the net stoichiometry. -/
def massActionRate {R : Type} [CommRing R] (c kv : String → R)
    (rxn : Reaction) : R :=
  kv rxn.coeff * (rxn.r_stoich.map fun sp => c sp.1 ^ sp.2).prod

/-- The mass-action derivative of species `n`: the sum over all reactions of
the net stoichiometric coefficient of `n` times the reaction's rate. -/
def massActionDeriv {R : Type} [CommRing R] (c kv : String → R)
    (rxns : List Reaction) (n : String) : R :=
  (rxns.map fun rxn => (netCoeff n rxn : R) * massActionRate c kv rxn).sum

/-- Syntactic SymPy expressions, as far as the generated kinetics expressions
need: symbols, integer constants, sums, products and natural powers.
`CythonODEsys.setup` manipulates expressions syntactically (`xreplace`), so a
syntactic type is required there. -/
inductive Expr where
  | var : String → Expr
  | int : ℤ → Expr
  | add : Expr → Expr → Expr
  | mul : Expr → Expr → Expr
  | pow : Expr → ℕ → Expr
deriving DecidableEq

/-- Numeric evaluation of an expression under a symbol valuation, the
semantics shared by `sym.lambdify` and by the compiled Cython module (both
evaluate the same arithmetic over the bound symbol values). -/
def Expr.eval {R : Type} [CommRing R] (v : String → R) : Expr → R
  | .var n => v n
  | .int z => (z : R)
  | .add a b => a.eval v + b.eval v
  | .mul a b => a.eval v * b.eval v
  | .pow a p => a.eval v ^ p

/-- Model of `expr.xreplace(subs)` for a substitution whose keys and values
are all symbols: every symbol `n` is replaced by the symbol `σ n`. -/
def Expr.xreplace (σ : String → String) : Expr → Expr
  | .var n => .var (σ n)
  | .int z => .int z
  | .add a b => .add (a.xreplace σ) (b.xreplace σ)
  | .mul a b => .mul (a.xreplace σ) (b.xreplace σ)
  | .pow a p => .pow (a.xreplace σ) p

/-- The symbols occurring in an expression. -/
def Expr.vars : Expr → List String
  | .var n => [n]
  | .int _ => []
  | .add a b => a.vars ++ b.vars
  | .mul a b => a.vars ++ b.vars
  | .pow a _ => a.vars

/-- Position of the first occurrence of `n` in a list of symbol names. -/
def findIndex (n : String) : List String → Option ℕ
  | [] => none
  | m :: ms => if m = n then some 0 else (findIndex n ms).map (· + 1)

/-- The name `'y[%d]' % i` that `CythonODEsys.setup` substitutes for the
`i`-th state symbol. -/
def yIndexName (i : ℕ) : String := "y[" ++ toString i ++ "]"

/-- The substitution `subs = {s: sym.Symbol('y[%d]' % i) for i, s in
enumerate(self.y)}` of `CythonODEsys.setup`: a state symbol becomes the
indexed access into the state array, every other symbol is untouched.  (The
dict comprehension keeps the last index of a duplicated symbol; the state
symbols of an `ODEsys` are pairwise distinct, so first-match lookup agrees.) -/
def cythonSubs (ys : List String) (n : String) : String :=
  match findIndex n ys with
  | some i => yIndexName i
  | none => n

/-- Modelled from the spec: the direct evaluation backend.  The `ODEsys` base
class (scipy2017codegen/odesys.py, loaded in notebook 35, which is not among
the provided sources) lambdifies the symbolic expressions, binding the `i`-th
state symbol to `y[i]` and each parameter symbol to the corresponding entry
of `params`; the spec calls this the backend that "binds expressions to a
generic numeric-evaluation function at call time". -/
def directVal {R : Type} [CommRing R] (ys ps : List String) (yv pv : List R)
    (n : String) : R :=
  match findIndex n ys with
  | some i => yv.getD i 0
  | none =>
    match findIndex n ps with
    | some i => pv.getD i 0
    | none => 0

/-- The module name generated by `CythonODEsys.setup`:
`'ode_cython_%s' % uuid.uuid4().hex[:10]`, as a function of the hex digest of
the freshly drawn uuid4 value.  The Python slice `[:10]` keeps the first ten
characters, modelled as `List.take 10` on the character data. -/
def mk_mod_name (hexdigest : String) : String :=
  "ode_cython_" ++ String.mk (hexdigest.data.take 10)

/-- Outcome of one `r.integrate(tout[idx])` call of the external VODE solver
(`scipy.integrate.ode`), abstracted as an oracle: the value of
`r.successful()` after the call, the state `r.y`, and how many times the step
invoked the wrapped rhs callback `f` and the Jacobian callback `j` (each
invocation increments `f.ncall` resp. `j.ncall` by exactly one). -/
structure VodeStep (α : Type) where
  success : Bool
  y : List α
  nf : ℕ
  nj : ℕ

/-- The diagnostics dict `{'num_rhs': f.ncall, 'num_dls_jac_evals': j.ncall}`
returned by `VODEsys.integrate_vode`. -/
structure VodeInfo where
  num_rhs : ℕ
  num_dls_jac_evals : ℕ
deriving DecidableEq

/-- The loop `for idx in range(1, len(tout))` of `VODEsys.integrate_vode`,
with `m` iterations left starting at step index `idx`: each iteration calls
the solver, asserts `r.successful()` (modelled as the error "Integration
failed"), and stores the row `r.y`; the callback counters accumulate across
iterations. -/
def vodeLoop {α : Type} (steps : ℕ → VodeStep α) :
    ℕ → ℕ → Except String (List (List α) × VodeInfo)
  | _, 0 => Except.ok ([], ⟨0, 0⟩)
  | idx, m + 1 =>
    if (steps idx).success then
      match vodeLoop steps (idx + 1) m with
      | Except.ok (rows, info) =>
        Except.ok ((steps idx).y :: rows,
          ⟨(steps idx).nf + info.num_rhs,
            (steps idx).nj + info.num_dls_jac_evals⟩)
      | Except.error msg => Except.error msg
    else Except.error "Integration failed"

/-- Model of `VODEsys.integrate_vode(tout, y0, ...)`: allocate the output
matrix, set row 0 to `y0`, run one solver step per remaining time point and
return the matrix together with the callback-count diagnostics.  The solver
itself is the oracle `steps`; `τ` is the (otherwise irrelevant) type of the
time values.  An empty `tout` makes the Python code fail on `tout[0]`,
modelled as the "IndexError" outcome. -/
def integrate_vode {α τ : Type} (steps : ℕ → VodeStep α) (tout : List τ)
    (y0 : List α) : Except String (List (List α) × VodeInfo) :=
  match tout with
  | [] => Except.error "IndexError"
  | _ :: rest =>
    match vodeLoop steps 1 rest.length with
    | Except.ok (rows, info) => Except.ok (y0 :: rows, info)
    | Except.error msg => Except.error msg

/-- Model of `np.clip(x, lo, hi)` on integers: `min(max(x, lo), hi)` (when
`lo > hi` numpy returns `hi`, which this formula reproduces). -/
def npClip (x lo hi : ℤ) : ℤ := min (max x lo) hi

/-- `MOLsys.central_reference_bin(i) = np.clip(i, 1, self.ny - 2)` from
notebook 60, where `ny` is the number of species per grid line. -/
def central_reference_bin (ny : ℕ) (i : ℤ) : ℤ :=
  npClip i 1 ((ny : ℤ) - 2)

/-- The three flattened state-vector indices `(k-1)*ny + j`, `k*ny + j` and
`(k+1)*ny + j` read by `MOLsys.second_derivatives_spatial` (and added to by
`MOLsys.j_eval`) for bin `i` and species `j`, with
`k = central_reference_bin(i)`. -/
def spatialStencilIndices (ny : ℕ) (i j : ℤ) : ℤ × ℤ × ℤ :=
  let k := central_reference_bin ny i
  ((k - 1) * ny + j, k * ny + j, (k + 1) * ny + j)

/-- Concrete reaction `A → B` at rate `k1`, used to instantiate theorems with
hypotheses at an explicit input. -/
def rxnW : Reaction := ⟨"k1", [("A", 1)], [("A", -1), ("B", 1)]⟩

/-- Concrete zeroth-order reaction `∅ → 2 B` at rate `k0` (empty reactant
dict), used to instantiate theorems with hypotheses at an explicit input. -/
def rxn0W : Reaction := ⟨"k0", [], [("B", 2)]⟩

/-- Concrete concentration valuation for instantiating theorems. -/
def cW : String → ℤ := fun _ => 2

/-- Concrete rate-constant valuation for instantiating theorems. -/
def kvW : String → ℤ := fun _ => 3

/-- Concrete valuation of the renamed symbols of the generated Cython module:
`y[0] ↦ 5`, `y[1] ↦ 7`, `k1 ↦ 11`. -/
def vW : String → ℤ := fun n =>
  if n = "y[0]" then 5 else if n = "y[1]" then 7 else if n = "k1" then 11 else 0

/-- Concrete rate expression `k1 · A²` for instantiating theorems. -/
def eW : Expr := .mul (.var "k1") (.pow (.var "A") 2)

/-- Concrete solver oracle (every step succeeds, returns the state `[0]` and
reports `k` rhs calls and `2k` Jacobian calls at step `k`) for instantiating
theorems. -/
def stepsW : ℕ → VodeStep ℤ := fun k => ⟨true, [0], k, 2 * k⟩

/-- Concrete time grid with three points for instantiating theorems. -/
def toutW : List ℤ := [0, 1, 2]

/-- Concrete initial state for instantiating theorems. -/
def y0W : List ℤ := [5]

lemma foldl_mul_eq_mul_prod {R : Type} [CommRing R] (xs : List R) (x : R) :
    xs.foldl (· * ·) x = x * xs.prod := by
  induction xs generalizing x with
  | nil => simp
  | cons y ys ih =>
    simp only [List.foldl_cons, List.prod_cons, ih (x * y), mul_assoc]

lemma prod_eq_list_prod {R : Type} [CommRing R] (l : List R) :
    prod l = l.prod := by
  cases l with
  | nil => simp [prod]
  | cons x xs => simp [prod, foldl_mul_eq_mul_prod]

lemma rateExpr_eq_massActionRate {R : Type} [CommRing R] (c kv : String → R)
    (rxn : Reaction) : rateExpr c kv rxn = massActionRate c kv rxn := by
  simp [rateExpr, massActionRate, prod_eq_list_prod]

lemma accumNet_apply {R : Type} [CommRing R] (r : R)
    (net : List (String × ℤ)) (f : String → R) (n : String) :
    accumNet r net f n = f n + (matchSum n net : R) * r := by
  induction net generalizing f with
  | nil => simp [accumNet, matchSum]
  | cons sp net ih =>
    simp only [accumNet, List.foldl_cons] at ih ⊢
    rw [ih]
    by_cases h : sp.1 = n
    · subst h
      rw [Function.update_same, matchSum, if_pos rfl]
      push_cast
      ring
    · rw [Function.update_noteq (fun hn => h hn.symm), matchSum, if_neg h]
      push_cast
      ring

lemma derivDict_foldl_apply {R : Type} [CommRing R] (c kv : String → R)
    (rxns : List Reaction) (f : String → R) (n : String) :
    (rxns.foldl (fun f rxn => accumNet (rateExpr c kv rxn) rxn.net_stoich f) f) n =
      f n + (rxns.map fun rxn =>
        (matchSum n rxn.net_stoich : R) * rateExpr c kv rxn).sum := by
  induction rxns generalizing f with
  | nil => simp
  | cons rxn rxns ih =>
    simp only [List.foldl_cons, List.map_cons, List.sum_cons]
    rw [ih, accumNet_apply]
    ring

lemma derivDict_apply {R : Type} [CommRing R] (c kv : String → R)
    (rxns : List Reaction) (n : String) :
    derivDict c kv rxns n = (rxns.map fun rxn =>
      (matchSum n rxn.net_stoich : R) * rateExpr c kv rxn).sum := by
  rw [derivDict, derivDict_foldl_apply]
  simp

lemma matchSum_eq_zero (n : String) (net : List (String × ℤ))
    (h : n ∉ net.map Prod.fst) : matchSum n net = 0 := by
  induction net with
  | nil => rfl
  | cons sp net ih =>
    simp only [List.map_cons, List.mem_cons] at h
    push_neg at h
    rw [matchSum, if_neg (fun he => h.1 he.symm), ih h.2, add_zero]

lemma matchSum_eq_netCoeff (n : String) (net : List (String × ℤ))
    (hnd : (net.map Prod.fst).Nodup) :
    matchSum n net = (net.lookup n).getD 0 := by
  induction net with
  | nil => rfl
  | cons sp net ih =>
    rw [List.map_cons, List.nodup_cons] at hnd
    by_cases h : sp.1 = n
    · subst h
      simp only [matchSum, List.lookup, eq_self_iff_true, if_true,
        beq_self_eq_true, Option.getD_some]
      rw [matchSum_eq_zero sp.1 net hnd.1, add_zero]
    · have hb : (n == sp.1) = false :=
        beq_eq_false_iff_ne.mpr fun he => h he.symm
      simp only [matchSum, List.lookup, if_neg h, hb, ih hnd.2, zero_add]

lemma keysOk_net_mem {rxns : List Reaction} {names : List String}
    (hk : keysOk rxns names = true) {rxn : Reaction} (hr : rxn ∈ rxns)
    {sp : String × ℤ} (hs : sp ∈ rxn.net_stoich) : sp.1 ∈ names := by
  simp only [keysOk, List.all_eq_true, Bool.and_eq_true] at hk
  have hc := (hk rxn hr).2 sp hs
  simpa [List.contains, List.elem_iff] using hc

/-- C1: for every reaction list and species list (on which the code completes,
i.e. all mentioned species occur in `names`; `net_stoich` is a dict so its
keys are distinct), `mk_exprs_symbs` returns exactly the law of mass action:
the derivative of each species is the sum over the reactions of the net
stoichiometric coefficient of that species times the reaction rate
`k · ∏ c^multiplicity`. -/
theorem mass_action_correct (R : Type) [CommRing R] (c kv : String → R)
    (rxns : List Reaction) (names : List String)
    (hkeys : keysOk rxns names = true)
    (hnodup : ∀ rxn ∈ rxns, (rxn.net_stoich.map Prod.fst).Nodup) :
    mk_exprs_symbs rxns names c kv =
      some (names.map (massActionDeriv c kv rxns), names,
        rxns.map Reaction.coeff) := by
  rw [mk_exprs_symbs, if_pos hkeys]
  refine congrArg some (congrArg (fun l => (l, names, rxns.map Reaction.coeff)) ?_)
  refine List.map_congr_left fun n _ => ?_
  rw [derivDict_apply, massActionDeriv]
  refine congrArg List.sum (List.map_congr_left fun rxn hr => ?_)
  rw [matchSum_eq_netCoeff n rxn.net_stoich (hnodup rxn hr), netCoeff,
    rateExpr_eq_massActionRate]

/-- Witness for C1: the network with the single reaction `A → B` at rate `k1`
over species `["A", "B"]`, with concentrations valued `2` and rate constants
valued `3` in `ℤ`. -/
theorem mass_action_correct_witness :
    mk_exprs_symbs [rxnW] ["A", "B"] cW kvW =
      some (["A", "B"].map (massActionDeriv cW kvW [rxnW]), ["A", "B"],
        [rxnW].map Reaction.coeff) :=
  mass_action_correct ℤ cW kvW [rxnW] ["A", "B"] (by decide) (by decide)

/-- C4: the outputs of `mk_exprs_symbs` are aligned: the `i`-th derivative
expression is the accumulated derivative of the `i`-th species name, the
returned symbol list is the species list in the given order, and the
rate-constant tuple lists the `coeff` symbols in the order the reactions were
given. -/
theorem mk_exprs_symbs_ordered (R : Type) [CommRing R] (c kv : String → R)
    (rxns : List Reaction) (names : List String)
    (hkeys : keysOk rxns names = true) :
    ∃ out, mk_exprs_symbs rxns names c kv =
        some (out, names, rxns.map Reaction.coeff) ∧
      out.length = names.length ∧
      ∀ i, i < names.length →
        out.getD i 0 = derivDict c kv rxns (names.getD i "not_a_species") := by
  refine ⟨names.map (derivDict c kv rxns), ?_, by simp, ?_⟩
  · rw [mk_exprs_symbs, if_pos hkeys]
  · intro i hi
    simp [List.getD_eq_getElem?_getD, List.getElem?_eq_getElem hi]

/-- Witness for C4 at the single reaction `A → B` over species `["A", "B"]`
with integer valuations. -/
theorem mk_exprs_symbs_ordered_witness :
    ∃ out, mk_exprs_symbs [rxnW] ["A", "B"] cW kvW =
        some (out, ["A", "B"], [rxnW].map Reaction.coeff) ∧
      out.length = (["A", "B"] : List String).length ∧
      ∀ i, i < (["A", "B"] : List String).length →
        out.getD i 0 =
          derivDict cW kvW [rxnW]
            ((["A", "B"] : List String).getD i "not_a_species") :=
  mk_exprs_symbs_ordered ℤ cW kvW [rxnW] ["A", "B"] (by decide)

lemma matchSum_net (n : String) (rxn : Reaction)
    (hnd : (rxn.net_stoich.map Prod.fst).Nodup) :
    matchSum n rxn.net_stoich = netCoeff n rxn :=
  matchSum_eq_netCoeff n rxn.net_stoich hnd

/-- C10: a reaction with an empty reactant dict gets the rate expression
equal to its rate constant alone (the `prod` of the empty list is `1`), and
its contribution is still accumulated into each species' derivative per the
net stoichiometry: with the zeroth-order reaction spliced into the reaction
list, each species' derivative is what the remaining reactions give plus the
net coefficient times the bare rate constant. -/
theorem zeroth_order_contribution (R : Type) [CommRing R] (c kv : String → R)
    (pre post : List Reaction) (rxn0 : Reaction) (names : List String)
    (hr : rxn0.r_stoich = [])
    (hnd0 : (rxn0.net_stoich.map Prod.fst).Nodup)
    (hkeys : keysOk (pre ++ rxn0 :: post) names = true) :
    rateExpr c kv rxn0 = kv rxn0.coeff ∧
    mk_exprs_symbs (pre ++ rxn0 :: post) names c kv =
      some (names.map (fun n => derivDict c kv (pre ++ post) n +
          (netCoeff n rxn0 : R) * kv rxn0.coeff),
        names, (pre ++ rxn0 :: post).map Reaction.coeff) := by
  have hrate : rateExpr c kv rxn0 = kv rxn0.coeff := by
    rw [rateExpr, hr]
    simp [prod]
  refine ⟨hrate, ?_⟩
  rw [mk_exprs_symbs, if_pos hkeys]
  refine congrArg some
    (congrArg (fun l => (l, names, (pre ++ rxn0 :: post).map Reaction.coeff)) ?_)
  refine List.map_congr_left fun n _ => ?_
  rw [derivDict_apply, derivDict_apply]
  simp only [List.map_append, List.map_cons, List.sum_append, List.sum_cons]
  rw [matchSum_net n rxn0 hnd0, hrate]
  ring

/-- Witness for C10 at the zeroth-order reaction `∅ → 2 B` over species
`["A", "B"]` with integer valuations. -/
theorem zeroth_order_contribution_witness :
    rateExpr cW kvW rxn0W = kvW rxn0W.coeff ∧
    mk_exprs_symbs ([] ++ rxn0W :: []) ["A", "B"] cW kvW =
      some ((["A", "B"] : List String).map (fun n =>
          derivDict cW kvW ([] ++ []) n + (netCoeff n rxn0W : ℤ) * kvW rxn0W.coeff),
        ["A", "B"], ([] ++ rxn0W :: []).map Reaction.coeff) :=
  zeroth_order_contribution ℤ cW kvW [] [] rxn0W ["A", "B"] (by decide)
    (by decide) (by decide)

lemma sum_zipWith_map {R : Type} [CommRing R] (w F : String → R)
    (names : List String) :
    (List.zipWith (fun n e => w n * e) names (names.map F)).sum =
      (names.map fun n => w n * F n).sum := by
  induction names with
  | nil => rfl
  | cons n names ih => simp [ih]

lemma sum_map_add_distrib {R : Type} [CommRing R] {α : Type} (l : List α)
    (f g : α → R) :
    (l.map fun a => f a + g a).sum = (l.map f).sum + (l.map g).sum := by
  induction l with
  | nil => simp
  | cons a l ih =>
    simp only [List.map_cons, List.sum_cons, ih]
    ring

lemma list_sum_comm {R : Type} [CommRing R] {α β : Type} (l1 : List α)
    (l2 : List β) (f : α → β → R) :
    (l1.map fun a => (l2.map fun b => f a b).sum).sum =
      (l2.map fun b => (l1.map fun a => f a b).sum).sum := by
  induction l1 with
  | nil => simp
  | cons a l1 ih =>
    simp only [List.map_cons, List.sum_cons, ih, ← sum_map_add_distrib]

lemma sum_map_ite_zero {R : Type} [CommRing R] (a : String)
    (names : List String) (g : String → R) (ha : a ∉ names) :
    (names.map fun n => if a = n then g n else 0).sum = 0 := by
  refine List.sum_eq_zero fun x hx => ?_
  obtain ⟨n, hn, rfl⟩ := List.mem_map.mp hx
  rw [if_neg fun he => ha (by rw [he]; exact hn)]

lemma sum_map_ite_single {R : Type} [CommRing R] (a : String)
    (names : List String) (g : String → R) (hnd : names.Nodup)
    (ha : a ∈ names) :
    (names.map fun n => if a = n then g n else 0).sum = g a := by
  induction names with
  | nil => cases ha
  | cons b names ih =>
    rw [List.nodup_cons] at hnd
    rcases List.mem_cons.mp ha with hb | hmem
    · subst hb
      simp only [List.map_cons, List.sum_cons, eq_self_iff_true, if_true]
      rw [sum_map_ite_zero a names g hnd.1, add_zero]
    · have hab : a ≠ b := fun he => hnd.1 (he ▸ hmem)
      simp only [List.map_cons, List.sum_cons, if_neg hab, ih hnd.2 hmem,
        zero_add]

lemma weighted_matchSum {R : Type} [CommRing R] (w : String → R)
    (names : List String) (net : List (String × ℤ)) (hnd : names.Nodup)
    (hsub : ∀ sp ∈ net, sp.1 ∈ names) :
    (names.map fun n => w n * (matchSum n net : R)).sum =
      (net.map fun sp => w sp.1 * (sp.2 : R)).sum := by
  induction net with
  | nil => simp [matchSum]
  | cons sp net ih =>
    have h1 : ∀ sp' ∈ net, sp'.1 ∈ names :=
      fun sp' h => hsub sp' (List.mem_cons_of_mem _ h)
    have h2 : ∀ n ∈ names,
        w n * (matchSum n (sp :: net) : R) =
          (if sp.1 = n then w n * (sp.2 : R) else 0) +
            w n * (matchSum n net : R) := by
      intro n _
      by_cases h : sp.1 = n
      · rw [matchSum, if_pos h, if_pos h]
        push_cast
        ring
      · rw [matchSum, if_neg h, if_neg h]
        push_cast
        ring
    rw [List.map_congr_left h2, sum_map_add_distrib,
      sum_map_ite_single sp.1 names (fun n => w n * (sp.2 : R)) hnd
        (hsub sp (List.mem_cons_self sp net)),
      ih h1, List.map_cons, List.sum_cons]

/-- C5: for a closed reaction network — every reaction has `w`-weighted net
stoichiometry summing to zero — the `w`-weighted sum of the derivative
expressions returned by `mk_exprs_symbs` is (symbolically, i.e. under every
valuation into every commutative ring) zero. -/
theorem conservation_law (R : Type) [CommRing R] (c kv w : String → R)
    (rxns : List Reaction) (names : List String) (out : List R)
    (symbs ks : List String)
    (hnames : names.Nodup)
    (hcons : ∀ rxn ∈ rxns,
      (rxn.net_stoich.map fun sp => w sp.1 * (sp.2 : R)).sum = 0)
    (hok : mk_exprs_symbs rxns names c kv = some (out, symbs, ks)) :
    (List.zipWith (fun n e => w n * e) names out).sum = 0 := by
  rw [mk_exprs_symbs] at hok
  have hkeys : keysOk rxns names = true := by
    by_contra h
    rw [if_neg h] at hok
    exact Option.noConfusion hok
  rw [if_pos hkeys] at hok
  have hout : names.map (derivDict c kv rxns) = out :=
    congrArg Prod.fst (Option.some.inj hok)
  subst hout
  rw [sum_zipWith_map]
  have h3 : ∀ n ∈ names,
      w n * derivDict c kv rxns n =
        (rxns.map fun rxn =>
          (w n * (matchSum n rxn.net_stoich : R)) * rateExpr c kv rxn).sum := by
    intro n _
    rw [derivDict_apply, ← List.sum_map_mul_left]
    exact congrArg List.sum (List.map_congr_left fun rxn _ => by ring)
  rw [List.map_congr_left h3, list_sum_comm]
  refine List.sum_eq_zero fun x hx => ?_
  obtain ⟨rxn, hrxn, rfl⟩ := List.mem_map.mp hx
  rw [List.sum_map_mul_right,
    weighted_matchSum w names rxn.net_stoich hnames
      (fun sp hs => keysOk_net_mem hkeys hrxn hs),
    hcons rxn hrxn, zero_mul]

/-- Witness for C5: the reaction `A → B` conserves the total concentration
`A + B` (weights all `1`), and the weighted sum of the produced derivative
expressions `[-6, 6]` (at integer valuations `c = 2`, `k = 3`) is zero. -/
theorem conservation_law_witness :
    (List.zipWith (fun n e => (fun _ : String => (1 : ℤ)) n * e)
      ["A", "B"] [-6, 6]).sum = 0 :=
  conservation_law ℤ cW kvW (fun _ => 1) [rxnW] ["A", "B"] [-6, 6]
    ["A", "B"] ["k1"] (by decide) (by decide) (by decide)

lemma findIndex_eq_none_iff (n : String) (l : List String) :
    findIndex n l = none ↔ n ∉ l := by
  induction l with
  | nil => simp [findIndex]
  | cons m ms ih =>
    by_cases h : m = n
    · subst h
      simp [findIndex]
    · simp only [findIndex, if_neg h, Option.map_eq_none', ih,
        List.mem_cons]
      exact ⟨fun hx hor => hx (hor.resolve_left fun he => h he.symm),
        fun hx hm => hx (Or.inr hm)⟩

lemma findIndex_lt_length (n : String) (l : List String) (i : ℕ)
    (h : findIndex n l = some i) : i < l.length := by
  induction l generalizing i with
  | nil => cases h
  | cons m ms ih =>
    rw [findIndex] at h
    by_cases hm : m = n
    · rw [if_pos hm] at h
      cases h
      simp
    · rw [if_neg hm] at h
      obtain ⟨j, hj, rfl⟩ := Option.map_eq_some'.mp h
      have := ih j hj
      simp only [List.length_cons]
      omega

/-- C2: the ahead-of-time (Cython) backend agrees with the direct symbolic
backend.  `CythonODEsys.setup` emits each expression with the state symbols
substituted by the indexed names `y[i]` (`self.f[i].xreplace(subs)`, and
likewise each Jacobian entry `self.j[ri, ci]`); evaluating the emitted
expression in the generated module — where the name `y[i]` denotes the `i`-th
entry of the state array and every remaining symbol keeps its direct value —
yields exactly the direct backend's value of the original expression, for
every expression `e` (instantiate `e` with each `self.f[i]` and each
`self.j[ri, ci]`), every state vector `yv` and parameter vector `pv`, and
every time value (neither backend's expressions depend on it), so the two
backends are equivalent functions of `(y, t, params)`. -/
theorem cython_backend_equiv (R : Type) [CommRing R] (ys ps : List String)
    (yv pv : List R) (v : String → R) (e : Expr)
    (hy : ∀ i, i < ys.length → v (yIndexName i) = yv.getD i 0)
    (hp : ∀ n ∈ e.vars, n ∉ ys → v n = directVal ys ps yv pv n) :
    Expr.eval v (e.xreplace (cythonSubs ys)) =
      Expr.eval (directVal ys ps yv pv) e := by
  induction e with
  | var n =>
    have hn : n ∈ Expr.vars (Expr.var n) := List.mem_singleton.mpr rfl
    show v (cythonSubs ys n) = directVal ys ps yv pv n
    cases hfi : findIndex n ys with
    | some i =>
      simp only [cythonSubs, directVal, hfi]
      exact hy i (findIndex_lt_length n ys i hfi)
    | none =>
      simp only [cythonSubs, hfi]
      exact hp n hn ((findIndex_eq_none_iff n ys).mp hfi)
  | int z => rfl
  | add a b iha ihb =>
    simp only [Expr.xreplace, Expr.eval]
    rw [iha fun n hn h => hp n (by simp [Expr.vars, hn]) h,
      ihb fun n hn h => hp n (by simp [Expr.vars, hn]) h]
  | mul a b iha ihb =>
    simp only [Expr.xreplace, Expr.eval]
    rw [iha fun n hn h => hp n (by simp [Expr.vars, hn]) h,
      ihb fun n hn h => hp n (by simp [Expr.vars, hn]) h]
  | pow a p iha =>
    simp only [Expr.xreplace, Expr.eval]
    rw [iha fun n hn h => hp n (by simp [Expr.vars, hn]) h]

/-- Witness for C2: the rate expression `k1 · A²` with state symbols
`["A", "B"]`, parameter `["k1"]`, state values `[5, 7]` and parameter value
`[11]`; the generated module's environment `vW` maps `y[0] ↦ 5`, `y[1] ↦ 7`,
`k1 ↦ 11`, and both backends yield `11 · 5² = 275`. -/
theorem cython_backend_equiv_witness :
    Expr.eval vW (eW.xreplace (cythonSubs ["A", "B"])) =
      Expr.eval (directVal ["A", "B"] ["k1"] [5, 7] [11]) eW :=
  cython_backend_equiv ℤ ["A", "B"] ["k1"] [5, 7] [11] vW eW
    (by decide) (by decide)

lemma vodeLoop_ok_iff {α : Type} (steps : ℕ → VodeStep α) (idx m : ℕ) :
    (∃ out, vodeLoop steps idx m = Except.ok out) ↔
      ∀ k, k < m → (steps (idx + k)).success = true := by
  induction m generalizing idx with
  | zero =>
    exact ⟨fun _ k hk => absurd hk (Nat.not_lt_zero k), fun _ => ⟨_, rfl⟩⟩
  | succ m ih =>
    by_cases hs : (steps idx).success = true
    · cases hinner : vodeLoop steps (idx + 1) m with
      | ok p =>
        obtain ⟨rows, info⟩ := p
        have hall := (ih (idx + 1)).mp ⟨_, hinner⟩
        constructor
        · intro _ k hk
          match k with
          | 0 => simpa using hs
          | j + 1 =>
            have := hall j (by omega)
            rwa [show idx + 1 + j = idx + (j + 1) by omega] at this
        · intro _
          refine ⟨((steps idx).y :: rows,
            ⟨(steps idx).nf + info.num_rhs,
              (steps idx).nj + info.num_dls_jac_evals⟩), ?_⟩
          rw [vodeLoop, if_pos hs, hinner]
      | error msg =>
        constructor
        · rintro ⟨out, hout⟩
          rw [vodeLoop, if_pos hs, hinner] at hout
          cases hout
        · intro h
          exfalso
          obtain ⟨out, hout⟩ := (ih (idx + 1)).mpr fun k hk => by
            have := h (k + 1) (by omega)
            rwa [show idx + (k + 1) = idx + 1 + k by omega] at this
          rw [hinner] at hout
          cases hout
    · constructor
      · rintro ⟨out, hout⟩
        rw [vodeLoop, if_neg hs] at hout
        cases hout
      · intro h
        exact absurd (by simpa using h 0 (Nat.succ_pos m)) hs

/-- C3: `VODEsys.integrate_vode` returns a trajectory exactly when every one
of the `len(tout) - 1` solver steps reports success; as soon as any step has
`r.successful()` false, the assertion fires ("Integration failed") and no
trajectory is returned. -/
theorem integrate_vode_ok_iff_all_success (α τ : Type)
    (steps : ℕ → VodeStep α) (tout : List τ) (y0 : List α)
    (hne : tout ≠ []) :
    (∃ out, integrate_vode steps tout y0 = Except.ok out) ↔
      ∀ k, k < tout.length → 1 ≤ k → (steps k).success = true := by
  cases tout with
  | nil => exact absurd rfl hne
  | cons t rest =>
    constructor
    · rintro ⟨out, hout⟩ k hk h1k
      rw [integrate_vode] at hout
      cases hloop : vodeLoop steps 1 rest.length with
      | ok p =>
        have hall := (vodeLoop_ok_iff steps 1 rest.length).mp ⟨p, hloop⟩
        have hk' := hall (k - 1) (by simp only [List.length_cons] at hk; omega)
        rwa [show 1 + (k - 1) = k by omega] at hk'
      | error msg =>
        rw [hloop] at hout
        cases hout
    · intro h
      obtain ⟨p, hp⟩ := (vodeLoop_ok_iff steps 1 rest.length).mpr fun k hk => by
        have := h (1 + k) (by simp only [List.length_cons]; omega) (by omega)
        exact this
      obtain ⟨rows, info⟩ := p
      refine ⟨(y0 :: rows, info), ?_⟩
      rw [integrate_vode, hp]

/-- Witness for C3: with the all-successful oracle `stepsW` and the
three-point grid `toutW`, a trajectory is returned. -/
theorem integrate_vode_ok_iff_all_success_witness :
    ∃ out, integrate_vode stepsW toutW y0W = Except.ok out :=
  (integrate_vode_ok_iff_all_success ℤ ℤ stepsW toutW y0W (by decide)).mpr
    (by decide)

lemma vodeLoop_counts {α : Type} (steps : ℕ → VodeStep α) (idx m : ℕ)
    (rows : List (List α)) (info : VodeInfo)
    (h : vodeLoop steps idx m = Except.ok (rows, info)) :
    info.num_rhs = ((List.range m).map fun k => (steps (idx + k)).nf).sum ∧
    info.num_dls_jac_evals =
      ((List.range m).map fun k => (steps (idx + k)).nj).sum := by
  induction m generalizing idx rows info with
  | zero =>
    rw [vodeLoop] at h
    obtain ⟨hrows, hinfo⟩ := Prod.ext_iff.mp (Except.ok.inj h)
    dsimp only at hrows hinfo
    rw [← hinfo]
    simp
  | succ m ih =>
    rw [vodeLoop] at h
    by_cases hs : (steps idx).success = true
    · rw [if_pos hs] at h
      cases hinner : vodeLoop steps (idx + 1) m with
      | ok p =>
        obtain ⟨rows0, info0⟩ := p
        rw [hinner] at h
        obtain ⟨hrows, hinfo⟩ := Prod.ext_iff.mp (Except.ok.inj h)
        dsimp only at hrows hinfo
        rw [← hinfo]
        obtain ⟨h1, h2⟩ := ih (idx + 1) rows0 info0 hinner
        have hshift : ∀ g : ℕ → ℕ,
            ((List.range (m + 1)).map fun k => g (idx + k)).sum =
              g idx + ((List.range m).map fun k => g (idx + 1 + k)).sum := by
          intro g
          rw [List.range_succ_eq_map, List.map_cons, List.sum_cons,
            Nat.add_zero, List.map_map]
          refine congrArg (g idx + ·) (congrArg List.sum ?_)
          exact List.map_congr_left fun k _ => by
            simp only [Function.comp_apply]
            rw [show idx + (k + 1) = idx + 1 + k by omega]
        constructor
        · show (steps idx).nf + info0.num_rhs = _
          rw [hshift fun i => (steps i).nf, h1]
        · show (steps idx).nj + info0.num_dls_jac_evals = _
          rw [hshift fun i => (steps i).nj, h2]
      | error msg =>
        rw [hinner] at h
        cases h
    · rw [if_neg hs] at h
      cases h

/-- C6: on success, the diagnostics record returned by
`VODEsys.integrate_vode` reports in `num_rhs` exactly the total number of rhs
callback invocations (each invocation increments `f.ncall` once) and in
`num_dls_jac_evals` exactly the total number of Jacobian callback
invocations, summed over the `len(tout) - 1` solver steps. -/
theorem integrate_vode_call_counts (α τ : Type) (steps : ℕ → VodeStep α)
    (tout : List τ) (y0 : List α) (rows : List (List α)) (info : VodeInfo)
    (h : integrate_vode steps tout y0 = Except.ok (rows, info)) :
    info.num_rhs =
      ((List.range (tout.length - 1)).map fun k => (steps (k + 1)).nf).sum ∧
    info.num_dls_jac_evals =
      ((List.range (tout.length - 1)).map fun k => (steps (k + 1)).nj).sum := by
  cases tout with
  | nil =>
    rw [integrate_vode] at h
    cases h
  | cons t rest =>
    rw [integrate_vode] at h
    cases hloop : vodeLoop steps 1 rest.length with
    | ok p =>
      obtain ⟨rows0, info0⟩ := p
      rw [hloop] at h
      obtain ⟨hrows, hinfo⟩ := Prod.ext_iff.mp (Except.ok.inj h)
      dsimp only at hrows hinfo
      rw [← hinfo]
      obtain ⟨h1, h2⟩ := vodeLoop_counts steps 1 rest.length rows0 info0 hloop
      simp only [List.length_cons, Nat.add_sub_cancel]
      constructor
      · rw [h1]
        exact congrArg List.sum
          (List.map_congr_left fun k _ => by rw [Nat.add_comm])
      · rw [h2]
        exact congrArg List.sum
          (List.map_congr_left fun k _ => by rw [Nat.add_comm])
    | error msg =>
      rw [hloop] at h
      cases h

/-- Witness for C6: `stepsW` reports `k` rhs calls and `2k` Jacobian calls at
step `k`, so over the two steps of `toutW` the diagnostics are `3` and `6`. -/
theorem integrate_vode_call_counts_witness :
    (⟨3, 6⟩ : VodeInfo).num_rhs =
      ((List.range (toutW.length - 1)).map fun k => (stepsW (k + 1)).nf).sum ∧
    (⟨3, 6⟩ : VodeInfo).num_dls_jac_evals =
      ((List.range (toutW.length - 1)).map fun k => (stepsW (k + 1)).nj).sum :=
  integrate_vode_call_counts ℤ ℤ stepsW toutW y0W [[5], [0], [0]] ⟨3, 6⟩ rfl

lemma vodeLoop_rows {α : Type} (steps : ℕ → VodeStep α) (idx m : ℕ)
    (rows : List (List α)) (info : VodeInfo) (ylen : ℕ)
    (hlen : ∀ k, ((steps k).y).length = ylen)
    (h : vodeLoop steps idx m = Except.ok (rows, info)) :
    rows.length = m ∧ ∀ row ∈ rows, row.length = ylen := by
  induction m generalizing idx rows info with
  | zero =>
    rw [vodeLoop] at h
    obtain ⟨hrows, hinfo⟩ := Prod.ext_iff.mp (Except.ok.inj h)
    dsimp only at hrows hinfo
    rw [← hrows]
    exact ⟨rfl, fun row hr => absurd hr (List.not_mem_nil row)⟩
  | succ m ih =>
    rw [vodeLoop] at h
    by_cases hs : (steps idx).success = true
    · rw [if_pos hs] at h
      cases hinner : vodeLoop steps (idx + 1) m with
      | ok p =>
        obtain ⟨rows0, info0⟩ := p
        rw [hinner] at h
        obtain ⟨hrows, hinfo⟩ := Prod.ext_iff.mp (Except.ok.inj h)
        dsimp only at hrows hinfo
        rw [← hrows]
        obtain ⟨h1, h2⟩ := ih (idx + 1) rows0 info0 hinner
        refine ⟨by simp [h1], fun row hr => ?_⟩
        rcases List.mem_cons.mp hr with hr0 | hr1
        · rw [hr0, hlen idx]
        · exact h2 row hr1
      | error msg =>
        rw [hinner] at h
        cases h
    · rw [if_neg hs] at h
      cases h

/-- C7: a successful `VODEsys.integrate_vode` call on a non-empty time grid
returns a state matrix with `len(tout)` rows (one per time point), each of
width `len(y0)` (one per species; the numpy row assignment `yout[idx, :] =
r.y` requires every solver state to have that width, hypothesis `hlen`), and
the first row is `y0` unchanged. -/
theorem integrate_vode_shape (α τ : Type) (steps : ℕ → VodeStep α)
    (tout : List τ) (y0 : List α) (rows : List (List α)) (info : VodeInfo)
    (hlen : ∀ k, ((steps k).y).length = y0.length)
    (h : integrate_vode steps tout y0 = Except.ok (rows, info)) :
    rows.length = tout.length ∧ (∀ row ∈ rows, row.length = y0.length) ∧
      rows.head? = some y0 := by
  cases tout with
  | nil =>
    rw [integrate_vode] at h
    cases h
  | cons t rest =>
    rw [integrate_vode] at h
    cases hloop : vodeLoop steps 1 rest.length with
    | ok p =>
      obtain ⟨rows0, info0⟩ := p
      rw [hloop] at h
      obtain ⟨hrows, hinfo⟩ := Prod.ext_iff.mp (Except.ok.inj h)
      dsimp only at hrows hinfo
      rw [← hrows]
      obtain ⟨h1, h2⟩ := vodeLoop_rows steps 1 rest.length rows0 info0
        y0.length hlen hloop
      refine ⟨by simp [h1], fun row hr => ?_, rfl⟩
      rcases List.mem_cons.mp hr with hr0 | hr1
      · rw [hr0]
      · exact h2 row hr1
    | error msg =>
      rw [hloop] at h
      cases h

/-- Witness for C7: the successful run of `stepsW` over the three-point grid
returns three rows of width one, the first being `y0W` itself. -/
theorem integrate_vode_shape_witness :
    ([[5], [0], [0]] : List (List ℤ)).length = toutW.length ∧
    (∀ row ∈ ([[5], [0], [0]] : List (List ℤ)), row.length = y0W.length) ∧
    ([[5], [0], [0]] : List (List ℤ)).head? = some y0W :=
  integrate_vode_shape ℤ ℤ stepsW toutW y0W [[5], [0], [0]] ⟨3, 6⟩
    (fun _ => rfl) rfl

/-- C8 counterexample: two invocations of `CythonODEsys.setup` whose freshly
drawn uuid4 values differ but agree on the first ten hex digits generate the
SAME module name, so the generated names are not unconditionally distinct —
uniqueness is only as good as non-collision of the random ten-digit prefix. -/
theorem mod_name_collision :
    mk_mod_name "0123456789abcdef0123456789abcdef" =
      mk_mod_name "0123456789fedcba0123456789fedcba" ∧
    "0123456789abcdef0123456789abcdef" ≠
      "0123456789fedcba0123456789fedcba" :=
  ⟨rfl, by decide⟩

/-- C8 (amended): the module names generated by two `CythonODEsys.setup`
invocations are equal exactly when the first ten hex digits of their uuid4
hex strings are equal; the construction prepends the fixed tag injectively,
so distinct ten-digit prefixes always give distinct compiled modules. -/
theorem mk_mod_name_inj_iff (u1 u2 : String) :
    mk_mod_name u1 = mk_mod_name u2 ↔ u1.data.take 10 = u2.data.take 10 := by
  constructor
  · intro h
    rw [mk_mod_name, mk_mod_name] at h
    have hd := congrArg String.data h
    rw [String.data_append, String.data_append] at hd
    exact List.append_cancel_left hd
  · intro h
    rw [mk_mod_name, mk_mod_name, h]

/-- C9: the state-vector indices that `MOLsys.second_derivatives_spatial` and
`MOLsys.j_eval` access are NOT within `[0, ny*n_lines)` for the notebook's
own configuration.  Notebook 60 builds `molsys` with two species (`ny = 2`)
and `n_lines = 50`; `central_reference_bin` clips with `ny - 2 = 0` (the
species count, where the number of grid lines is evidently intended), so
`k = clip(i, 1, 0) = 0` for every bin `i` and the left stencil index
`(k-1)*ny + j = -2` is negative — numpy's negative indexing silently wraps
it to the far end of the state vector. -/
theorem mol_stencil_out_of_bounds :
    central_reference_bin 2 25 = 0 ∧
    (spatialStencilIndices 2 25 0).1 = -2 ∧
    ¬ (0 ≤ (spatialStencilIndices 2 25 0).1 ∧
        (spatialStencilIndices 2 25 0).1 < 2 * 50) := by
  decide
